import Mathlib

/-!
Shallow embedding of the correlation-context propagation codec of the
opentelemetry repository (`src/api/correlation/propagation.rs`) together
with the generic string-keyed carrier adapter
(`src/api/context/propagation/mod.rs`).

Strings are modelled as `List Char` (Unicode scalar values); the byte-level
operations of the `percent_encoding` crate are modelled over the UTF-8
bytes of those characters, as `Nat`s below 256.
-/

/-- Strings of the model: lists of Unicode scalar values. -/
abbrev Str := List Char

/-- Rust `str::split(sep)` semantics: the empty string yields `[""]`,
adjacent separators yield empty segments, a trailing separator yields a
trailing empty segment. -/
def splitOnChar (sep : Char) : Str → List Str
  | [] => [[]]
  | c :: rest =>
    let r := splitOnChar sep rest
    if c = sep then [] :: r
    else
      match r with
      | s :: ss => (c :: s) :: ss
      | [] => [[c]]

/-- `Vec::join(sep)`: interleave a separator character between parts. -/
def joinSep (sep : Char) : List Str → Str
  | [] => []
  | [p] => p
  | p :: ps => p ++ sep :: joinSep sep ps

/-- Rust `char::is_whitespace` (the Unicode `White_Space` property),
as used by `str::trim`. -/
def isRustWhitespace (c : Char) : Bool :=
  c.toNat = 0x09 || c.toNat = 0x0A || c.toNat = 0x0B || c.toNat = 0x0C ||
  c.toNat = 0x0D || c.toNat = 0x20 || c.toNat = 0x85 || c.toNat = 0xA0 ||
  c.toNat = 0x1680 || (0x2000 ≤ c.toNat && c.toNat ≤ 0x200A) ||
  c.toNat = 0x2028 || c.toNat = 0x2029 || c.toNat = 0x202F ||
  c.toNat = 0x205F || c.toNat = 0x3000

/-- Drop leading whitespace, as `str::trim_start`. -/
def trimStart (s : Str) : Str := s.dropWhile isRustWhitespace

/-- Drop trailing whitespace, as `str::trim_end`. -/
def trimEnd (s : Str) : Str := (trimStart s.reverse).reverse

/-- Rust `str::trim`: strip whitespace from both ends. -/
def trimStr (s : Str) : Str := trimEnd (trimStart s)

/-- The `FRAGMENT` encode set of `propagation.rs`:
`CONTROLS.add(b' ').add(b'"').add(b';').add(b',').add(b'=')`.
`CONTROLS` is the C0 range `0x00..=0x1F` together with `0x7F`. -/
def inFragment (b : Nat) : Bool :=
  b < 0x20 || b = 0x7F || b = 0x20 || b = 0x22 || b = 0x3B || b = 0x2C || b = 0x3D

/-- The `percent_encoding` crate escapes a byte iff it is non-ASCII or a
member of the encode set. -/
def shouldPctEncode (b : Nat) : Bool :=
  0x80 ≤ b || inFragment b

/-- Upper-case hexadecimal digit, as produced by the
`percent_encoding` crate's byte-to-`%XX` table. -/
def hexUpper (n : Nat) : Char :=
  if n = 0 then '0' else if n = 1 then '1' else if n = 2 then '2'
  else if n = 3 then '3' else if n = 4 then '4' else if n = 5 then '5'
  else if n = 6 then '6' else if n = 7 then '7' else if n = 8 then '8'
  else if n = 9 then '9' else if n = 10 then 'A' else if n = 11 then 'B'
  else if n = 12 then 'C' else if n = 13 then 'D' else if n = 14 then 'E'
  else 'F'

/-- Value of an ASCII hex digit (either case), as accepted by the
`percent_encoding` crate's decoder. -/
def hexVal (c : Char) : Option Nat :=
  if 48 ≤ c.toNat ∧ c.toNat ≤ 57 then some (c.toNat - 48)
  else if 65 ≤ c.toNat ∧ c.toNat ≤ 70 then some (c.toNat - 55)
  else if 97 ≤ c.toNat ∧ c.toNat ≤ 102 then some (c.toNat - 87)
  else none

/-- UTF-8 encoding of one Unicode scalar value, as the list of its bytes. -/
def utf8Bytes (c : Char) : List Nat :=
  let n := c.toNat
  if n < 0x80 then [n]
  else if n < 0x800 then [0xC0 + n / 64, 0x80 + n % 64]
  else if n < 0x10000 then
    [0xE0 + n / 4096, 0x80 + (n / 64) % 64, 0x80 + n % 64]
  else
    [0xF0 + n / 262144, 0x80 + (n / 4096) % 64, 0x80 + (n / 64) % 64, 0x80 + n % 64]

/-- The `%XX` form of one escaped byte. -/
def pctByte (b : Nat) : Str :=
  ['%', hexUpper (b / 16), hexUpper (b % 16)]

/-- `utf8_percent_encode(s, FRAGMENT)`: each byte of the UTF-8 form of `s`
is either emitted literally (ASCII outside the encode set) or as `%XX`. -/
def utf8PercentEncode (s : Str) : Str :=
  s.flatMap fun c =>
    (utf8Bytes c).flatMap fun b =>
      if shouldPctEncode b then pctByte b else [Char.ofNat b]

/-- `percent_decode_str`: a `%` followed by two hex digits becomes the
denoted byte; a `%` not so followed passes through as the byte `0x25`;
every other character contributes its UTF-8 bytes. -/
def percentDecode : Str → List Nat
  | [] => []
  | c :: rest =>
    if c = '%' then
      match rest with
      | h1 :: h2 :: rest2 =>
        match hexVal h1, hexVal h2 with
        | some a, some b => (16 * a + b) :: percentDecode rest2
        | _, _ => 0x25 :: percentDecode (h1 :: h2 :: rest2)
      | [h1] => 0x25 :: percentDecode [h1]
      | [] => [0x25]
    else utf8Bytes c ++ percentDecode rest

/-- A UTF-8 continuation byte, `0x80..=0xBF`. -/
def contByte (b : Nat) : Bool := 0x80 ≤ b && b < 0xC0

/-- Extra constraints on the first continuation byte of a three-byte
sequence: no overlong forms (`E0`) and no surrogates (`ED`). -/
def utf8Ok3 (b b1 : Nat) : Bool :=
  (b ≠ 0xE0 || 0xA0 ≤ b1) && (b ≠ 0xED || b1 < 0xA0)

/-- Extra constraints on the first continuation byte of a four-byte
sequence: no overlong forms (`F0`) and nothing above `0x10FFFF` (`F4`). -/
def utf8Ok4 (b b1 : Nat) : Bool :=
  (b ≠ 0xF0 || 0x90 ≤ b1) && (b ≠ 0xF4 || b1 < 0x90)

/-- One step of strict UTF-8 decoding: the first scalar value of the byte
list and the remaining bytes, or `none` on malformed input (stray
continuation byte, overlong form, surrogate, value above `0x10FFFF`). -/
def utf8Step : List Nat → Option (Char × List Nat)
  | [] => none
  | b :: rest =>
    if b < 0x80 then some (Char.ofNat b, rest)
    else if b < 0xC2 then none
    else if b < 0xE0 then
      match rest with
      | b1 :: rest2 =>
        if contByte b1 then some (Char.ofNat ((b % 32) * 64 + b1 % 64), rest2) else none
      | [] => none
    else if b < 0xF0 then
      match rest with
      | b1 :: b2 :: rest2 =>
        if contByte b1 && contByte b2 && utf8Ok3 b b1 then
          some (Char.ofNat ((b % 16) * 4096 + (b1 % 64) * 64 + b2 % 64), rest2)
        else none
      | _ => none
    else if b < 0xF5 then
      match rest with
      | b1 :: b2 :: b3 :: rest2 =>
        if contByte b1 && contByte b2 && contByte b3 && utf8Ok4 b b1 then
          some (Char.ofNat ((b % 8) * 262144 + (b1 % 64) * 4096 + (b2 % 64) * 64 + b3 % 64),
            rest2)
        else none
      | _ => none
    else none

/-- Fuelled iteration of `utf8Step`; since every step consumes at least
one byte, fuel equal to the byte count is always sufficient. -/
def decodeUtf8Fuel : Nat → List Nat → Option Str
  | _, [] => some []
  | 0, _ :: _ => none
  | fuel + 1, b :: rest =>
    match utf8Step (b :: rest) with
    | none => none
    | some (c, rest2) => (decodeUtf8Fuel fuel rest2).map (fun cs => c :: cs)

/-- Strict UTF-8 decoding of a byte list (`Cow::decode_utf8` on the Rust
side): the character list on success, `none` on malformed input. -/
def decodeUtf8 (bs : List Nat) : Option Str := decodeUtf8Fuel bs.length bs

/-- Modelled from the spec: the supported correlation value kinds (§3);
the value enumeration itself lives outside `src/`. The floating-point,
byte-sequence and array kinds are omitted: no claim depends on their
string forms. -/
inductive Value where
  | bool (b : Bool)
  | i64 (i : Int)
  | u64 (n : Nat)
  | string (s : Str)
  deriving DecidableEq, Repr

/-- Modelled from the spec: the canonical string form of a value
(`String::from(value)` on the Rust side, outside `src/`): `true`/`false`
for booleans, canonical decimal for integers, the string itself for
strings. -/
def valueToString : Value → Str
  | .bool true => "true".toList
  | .bool false => "false".toList
  | .i64 i => (toString i).toList
  | .u64 n => (toString n).toList
  | .string s => s

/-- Modelled from the spec: `CorrelationContext` (§3) lives outside
`src/`; it is a string-keyed mapping with unique keys and a stable order,
here an association list in which each key occurs at most once. -/
abbrev CorrelationContext := List (Str × Value)

/-- Modelled from the spec: inserting into a unique-key mapping replaces
the value of an existing key in place and appends a new key at the end
(§3 "inserting an existing key replaces its value"). Generic in the value
type so the same mapping serves the `HashMap` carrier adapter. -/
def aInsert {α : Type} (m : List (Str × α)) (k : Str) (v : α) : List (Str × α) :=
  if m.any (fun p => decide (p.1 = k)) then
    m.map (fun p => if p.1 = k then (k, v) else p)
  else m ++ [(k, v)]

/-- Mapping lookup: value of the first entry with the given key. -/
def aGet {α : Type} : List (Str × α) → Str → Option α
  | [], _ => none
  | p :: rest, k => if p.1 = k then some p.2 else aGet rest k

/-- Value of the last entry with the given key in a raw pair list
(not necessarily unique-keyed). -/
def assocLast {α : Type} : List (Str × α) → Str → Option α
  | [], _ => none
  | p :: rest, k =>
    match assocLast rest k with
    | some v => some v
    | none => if p.1 = k then some p.2 else none

/-- Collection of a pair sequence into the unique-key mapping
(`FromIterator` on the Rust side): later pairs override earlier ones. -/
def fromPairs {α : Type} (l : List (Str × α)) : List (Str × α) :=
  l.foldl (fun m p => aInsert m p.1 p.2) []

/-- Well-formedness of a mapping: keys are pairwise distinct. -/
abbrev mapWF {α : Type} (m : List (Str × α)) : Prop :=
  (m.map Prod.fst).Nodup

/-- `Context::with_correlations` (`propagation.rs`): the base context's
correlation pairs are chained with the new pairs and collected into a
fresh unique-key mapping, so a new pair overrides a base entry with the
same key. -/
def with_correlations (base : CorrelationContext) (kvs : List (Str × Value)) :
    CorrelationContext :=
  fromPairs (base ++ kvs)

/-- The single wire field written by the propagator,
`CORRELATION_CONTEXT_HEADER = "otcorrelations"`. -/
def correlationHeader : Str := "otcorrelations".toList

/-- `inject_context` (`propagation.rs`): if the correlation context is
non-empty, each pair is rendered as `encode(trim(name)) = encode(trim(string(value)))`
and the entries are joined with `,`; an empty correlation context writes
nothing (`none`). -/
def inject_context (cc : CorrelationContext) : Option Str :=
  if cc = [] then none
  else
    some (joinSep ','
      (cc.map fun p =>
        utf8PercentEncode (trimStr p.1) ++ '=' ::
          utf8PercentEncode (trimStr (valueToString p.2))))

/-- One entry of `extract_with_context` (`propagation.rs`): split on `;`,
take the first segment as the `name=value` pair and the rest as
properties; split that segment on `=` and take the first two pieces;
percent-decode and UTF-8-validate name and value (failure discards the
entry); properties are percent-decoded individually (failures skipped),
trimmed, and appended to the trimmed value as `;prop` suffixes. -/
def parseEntry (entry : Str) : Option (Str × Str) :=
  match splitOnChar ';' entry with
  | [] => none
  | nameAndValue :: props =>
    match splitOnChar '=' nameAndValue with
    | name :: value :: _ =>
      match decodeUtf8 (percentDecode name), decodeUtf8 (percentDecode value) with
      | some nameD, some valueD =>
        let decodedProps :=
          ((props.filterMap fun p => decodeUtf8 (percentDecode p)).map
            fun p => ';' :: trimStr p).flatten
        some (trimStr nameD, trimStr valueD ++ decodedProps)
      | _, _ => none
    | _ => none

/-- An extracted entry as a correlation pair: `KeyValue::new(name, value)`
stores the decoded value as a string-kind value. -/
def parseEntryKV (entry : Str) : Option (Str × Value) :=
  (parseEntry entry).map fun p => (p.1, Value.string p.2)

/-- The pairs successfully extracted from a wire field value: entries are
the `,`-separated segments, malformed ones are skipped. -/
def extractedPairs (headerValue : Str) : List (Str × Value) :=
  (splitOnChar ',' headerValue).filterMap parseEntryKV

/-- `extract_with_context` (`propagation.rs`), with the carrier access
already performed: `headerValue` is the result of
`extractor.get("otcorrelations")`. An absent field returns the base
correlation context unchanged; otherwise the extracted pairs are merged
into it via `with_correlations`. -/
def extract_with_context (base : CorrelationContext) (headerValue : Option Str) :
    CorrelationContext :=
  match headerValue with
  | none => base
  | some hv => with_correlations base (extractedPairs hv)

/-- The ASCII fragment of Rust `str::to_lowercase`, the normalization
applied by the `HashMap` carrier adapter. -/
def asciiToLower (c : Char) : Char :=
  if 65 ≤ c.toNat ∧ c.toNat ≤ 90 then Char.ofNat (c.toNat + 32) else c

/-- Key normalization of the `HashMap` adapter: `key.to_lowercase()`. -/
def lowerStr (s : Str) : Str := s.map asciiToLower

/-- `impl Injector for HashMap`: `self.insert(key.to_lowercase(), value)`. -/
def hmSet (m : List (Str × Str)) (k v : Str) : List (Str × Str) :=
  aInsert m (lowerStr k) v

/-- `impl Extractor for HashMap`: `self.get(&key.to_lowercase())`. -/
def hmGet (m : List (Str × Str)) (k : Str) : Option Str :=
  aGet m (lowerStr k)

/-- `inject_context` acting on a `HashMap` carrier: sets the wire field
through the `Injector` impl when a field value is produced. -/
def injectContextHashMap (cc : CorrelationContext) (m : List (Str × Str)) :
    List (Str × Str) :=
  match inject_context cc with
  | none => m
  | some v => hmSet m correlationHeader v

/-- A character that survives the codec unchanged: ASCII, outside the
`FRAGMENT` encode set, and not `%`. These are exactly the characters the
encoder emits literally and the decoder passes through untouched. -/
def safeChar (c : Char) : Bool :=
  decide (c.toNat < 0x80) && !inFragment c.toNat && decide (c ≠ '%')

/-- A string all of whose characters are `safeChar`. -/
def safeStr (s : Str) : Bool := s.all safeChar

/-- A value of string kind whose content is `safeStr`. -/
def stringKindSafe : Value → Bool
  | .string s => safeStr s
  | _ => false

theorem charOfNatToNat (c : Char) : Char.ofNat c.toNat = c := by
  have hv : c.toNat.isValidChar := by
    rcases c.valid with h | ⟨h1, h2⟩
    · exact Or.inl (by exact_mod_cast h)
    · exact Or.inr ⟨by exact_mod_cast h1, by exact_mod_cast h2⟩
  apply Char.eq_of_val_eq
  simp only [Char.ofNat]
  split
  · apply UInt32.eq_of_toBitVec_eq
    simp [Char.ofNatAux, BitVec.ofNatLt]
    apply BitVec.eq_of_toFin_eq
    apply Fin.eq_of_val_eq
    simp [Char.toNat, UInt32.toNat]
  · exact absurd hv (by assumption)

theorem toNat_charOfNat_of_lt {b : Nat} (h : b < 0xD800) :
    (Char.ofNat b).toNat = b := by
  have hv : b.isValidChar := Or.inl h
  simp only [Char.ofNat]
  split
  · simp [Char.ofNatAux, Char.toNat, UInt32.toNat, BitVec.ofNatLt]
  · exact absurd hv (by assumption)

theorem charOfNat_toNat_lt {b : Nat} (h : b < 0x80) : (Char.ofNat b).toNat < 0x80 := by
  rw [toNat_charOfNat_of_lt (by omega)]; exact h

theorem char_toNat_lt (c : Char) : c.toNat < 0x110000 := by
  rcases c.valid with h | ⟨_, h2⟩
  · have : c.toNat < 0xD800 := by exact_mod_cast h
    omega
  · exact_mod_cast h2

theorem splitOnChar_ne_nil (sep : Char) (s : Str) : splitOnChar sep s ≠ [] := by
  induction s with
  | nil => simp [splitOnChar]
  | cons c rest ih =>
    simp only [splitOnChar]
    split
    · simp
    · match h : splitOnChar sep rest with
      | [] => simp
      | t :: ts => simp

theorem splitOnChar_no_sep {sep : Char} {s : Str} (h : sep ∉ s) :
    splitOnChar sep s = [s] := by
  induction s with
  | nil => rfl
  | cons c rest ih =>
    have hc : c ≠ sep := fun he => h (he ▸ List.mem_cons_self c rest)
    have hr : sep ∉ rest := fun hm => h (List.mem_cons_of_mem c hm)
    simp only [splitOnChar, if_neg hc, ih hr]

theorem splitOnChar_append_sep {sep : Char} {a b : Str} (h : sep ∉ a) :
    splitOnChar sep (a ++ sep :: b) = a :: splitOnChar sep b := by
  induction a with
  | nil => simp [splitOnChar]
  | cons c rest ih =>
    have hc : c ≠ sep := fun he => h (he ▸ List.mem_cons_self c rest)
    have hr : sep ∉ rest := fun hm => h (List.mem_cons_of_mem c hm)
    simp only [List.cons_append, splitOnChar, List.append_eq, ih hr, if_neg hc]

theorem joinSep_split {sep : Char} {parts : List Str} (hne : parts ≠ [])
    (h : ∀ p ∈ parts, sep ∉ p) :
    splitOnChar sep (joinSep sep parts) = parts := by
  induction parts with
  | nil => exact absurd rfl hne
  | cons p ps ih =>
    match ps with
    | [] =>
      simp only [joinSep]
      exact splitOnChar_no_sep (h p (List.mem_cons_self p []))
    | q :: qs =>
      have h1 : sep ∉ p := h p (List.mem_cons_self p (q :: qs))
      have h2 : ∀ r ∈ q :: qs, sep ∉ r := fun r hr => h r (List.mem_cons_of_mem p hr)
      simp only [joinSep, splitOnChar_append_sep h1, ih (by simp) h2]

theorem mem_of_mem_splitOnChar {sep c : Char} {s t : Str}
    (ht : t ∈ splitOnChar sep s) (hc : c ∈ t) : c ∈ s := by
  induction s generalizing t with
  | nil =>
    simp [splitOnChar] at ht
    subst ht
    exact absurd hc (List.not_mem_nil c)
  | cons d rest ih =>
    simp only [splitOnChar] at ht
    by_cases hd : d = sep
    · rw [if_pos hd] at ht
      rcases List.mem_cons.mp ht with h1 | h1
      · subst h1; exact absurd hc (List.not_mem_nil c)
      · exact List.mem_cons_of_mem d (ih h1 hc)
    · rw [if_neg hd] at ht
      match hrec : splitOnChar sep rest with
      | [] => exact absurd hrec (splitOnChar_ne_nil sep rest)
      | u :: us =>
        rw [hrec] at ht
        rcases List.mem_cons.mp ht with h1 | h1
        · subst h1
          rcases List.mem_cons.mp hc with h2 | h2
          · exact h2 ▸ List.mem_cons_self d rest
          · exact List.mem_cons_of_mem d (ih (hrec ▸ List.mem_cons_self u us) h2)
        · exact List.mem_cons_of_mem d (ih (hrec ▸ List.mem_cons_of_mem u h1) hc)

theorem safeChar_not_ws {c : Char} (h : safeChar c = true) :
    isRustWhitespace c = false := by
  simp only [safeChar, Bool.and_eq_true, Bool.not_eq_true', decide_eq_true_eq] at h
  obtain ⟨⟨h1, h2⟩, _⟩ := h
  simp only [inFragment, Bool.or_eq_false_iff, decide_eq_false_iff_not] at h2
  rw [Bool.eq_false_iff]
  intro hws
  simp only [isRustWhitespace, Bool.or_eq_true, Bool.and_eq_true, decide_eq_true_eq] at hws
  omega

theorem safeChar_spec {c : Char} (h : safeChar c = true) :
    c.toNat < 0x80 ∧ inFragment c.toNat = false ∧ c ≠ '%' := by
  simp only [safeChar, Bool.and_eq_true, Bool.not_eq_true', decide_eq_true_eq] at h
  exact ⟨h.1.1, h.1.2, h.2⟩

theorem safeChar_ne_fragment {c d : Char} (h : safeChar c = true)
    (hd : inFragment d.toNat = true) : c ≠ d := by
  intro he
  obtain ⟨-, h2, -⟩ := safeChar_spec h
  rw [he, hd] at h2
  exact Bool.true_eq_false.mp h2

theorem safeStr_not_mem_semi {s : Str} (h : safeStr s = true) : ';' ∉ s :=
  fun hm => safeChar_ne_fragment (List.all_eq_true.mp h _ hm) (by decide) rfl

theorem safeStr_not_mem_comma {s : Str} (h : safeStr s = true) : ',' ∉ s :=
  fun hm => safeChar_ne_fragment (List.all_eq_true.mp h _ hm) (by decide) rfl

theorem safeStr_not_mem_eq {s : Str} (h : safeStr s = true) : '=' ∉ s :=
  fun hm => safeChar_ne_fragment (List.all_eq_true.mp h _ hm) (by decide) rfl

theorem trimStart_id {s : Str} (h : ∀ c ∈ s, isRustWhitespace c = false) :
    trimStart s = s := by
  match s with
  | [] => rfl
  | c :: rest =>
    simp only [trimStart, List.dropWhile_cons, h c (List.mem_cons_self c rest)]
    simp

theorem trimStr_safe_id {s : Str} (h : safeStr s = true) : trimStr s = s := by
  have hws : ∀ c ∈ s, isRustWhitespace c = false :=
    fun c hc => safeChar_not_ws (List.all_eq_true.mp h c hc)
  have h1 : trimStart s = s := trimStart_id hws
  simp only [trimStr, trimEnd, h1]
  rw [trimStart_id (fun c hc => hws c (List.mem_reverse.mp hc)), List.reverse_reverse]

theorem utf8Bytes_ascii {c : Char} (h : c.toNat < 0x80) : utf8Bytes c = [c.toNat] := by
  simp [utf8Bytes, h]

theorem utf8PercentEncode_safe_id {s : Str} (h : safeStr s = true) :
    utf8PercentEncode s = s := by
  induction s with
  | nil => rfl
  | cons c rest ih =>
    have hc := safeChar_spec (List.all_eq_true.mp h c (List.mem_cons_self c rest))
    have hrest : safeStr rest = true :=
      List.all_eq_true.mpr fun x hx => List.all_eq_true.mp h x (List.mem_cons_of_mem c hx)
    have henc : shouldPctEncode c.toNat = false := by
      simp only [shouldPctEncode, Bool.or_eq_false_iff, decide_eq_false_iff_not]
      exact ⟨by omega, hc.2.1⟩
    simp only [utf8PercentEncode, List.flatMap_cons] at *
    rw [utf8Bytes_ascii hc.1]
    simp only [List.flatMap_cons, List.flatMap_nil, henc, Bool.false_eq_true, if_false,
      List.append_nil]
    rw [charOfNatToNat, ih hrest]
    rfl

theorem percentDecode_cons_of_ne {c : Char} {rest : Str} (h : c ≠ '%') :
    percentDecode (c :: rest) = utf8Bytes c ++ percentDecode rest := by
  rw [percentDecode.eq_def]
  simp [h]

theorem percentDecode_safe {s : Str} (h : safeStr s = true) :
    percentDecode s = s.map Char.toNat := by
  induction s with
  | nil => rfl
  | cons c rest ih =>
    have hc := safeChar_spec (List.all_eq_true.mp h c (List.mem_cons_self c rest))
    have hrest : safeStr rest = true :=
      List.all_eq_true.mpr fun x hx => List.all_eq_true.mp h x (List.mem_cons_of_mem c hx)
    rw [percentDecode_cons_of_ne hc.2.2, utf8Bytes_ascii hc.1, ih hrest, List.map_cons]
    rfl

theorem utf8Step_ascii {b : Nat} {rest : List Nat} (h : b < 0x80) :
    utf8Step (b :: rest) = some (Char.ofNat b, rest) := by
  simp [utf8Step, h]

theorem decodeUtf8Fuel_ascii {s : Str} (h : ∀ c ∈ s, c.toNat < 0x80) :
    ∀ fuel, s.length ≤ fuel → decodeUtf8Fuel fuel (s.map Char.toNat) = some s := by
  induction s with
  | nil => intro fuel _; cases fuel <;> rfl
  | cons c rest ih =>
    intro fuel hf
    have hc := h c (List.mem_cons_self c rest)
    have hrest := ih fun x hx => h x (List.mem_cons_of_mem c hx)
    match fuel with
    | 0 => simp at hf
    | fuel + 1 =>
      have hstep : decodeUtf8Fuel (fuel + 1) (c.toNat :: rest.map Char.toNat) =
          match utf8Step (c.toNat :: rest.map Char.toNat) with
          | none => none
          | some (d, rest2) => (decodeUtf8Fuel fuel rest2).map (fun cs => d :: cs) := rfl
      rw [List.map_cons, hstep, utf8Step_ascii hc]
      simp only [hrest fuel (by simpa using Nat.succ_le_succ_iff.mp hf), charOfNatToNat,
        Option.map_some]
      rfl

theorem decodeUtf8_ascii {s : Str} (h : ∀ c ∈ s, c.toNat < 0x80) :
    decodeUtf8 (s.map Char.toNat) = some s := by
  rw [decodeUtf8, decodeUtf8Fuel_ascii h]
  simp

theorem aGet_map_replace {α : Type} {m : List (Str × α)} {k k' : Str} {v : α}
    (h : k' ≠ k) :
    aGet (m.map (fun p => if p.1 = k then (k, v) else p)) k' = aGet m k' := by
  induction m with
  | nil => rfl
  | cons p rest ih =>
    by_cases hp : p.1 = k
    · simp only [List.map_cons, if_pos hp, aGet]
      rw [if_neg (fun he : k = k' => h he.symm), if_neg (fun he : p.1 = k' => h (hp ▸ he).symm), ih]
    · simp only [List.map_cons, if_neg hp, aGet, ih]

theorem aGet_map_replace_self {α : Type} {m : List (Str × α)} {k : Str} {v : α}
    (h : m.any (fun p => decide (p.1 = k)) = true) :
    aGet (m.map (fun p => if p.1 = k then (k, v) else p)) k = some v := by
  induction m with
  | nil => simp at h
  | cons p rest ih =>
    by_cases hp : p.1 = k
    · simp [List.map_cons, if_pos hp, aGet]
    · have h2 : rest.any (fun p => decide (p.1 = k)) = true := by
        simp only [List.any_cons, Bool.or_eq_true, decide_eq_true_eq] at h
        rcases h with h | h
        · exact absurd h hp
        · exact h
      simp only [List.map_cons, if_neg hp, aGet, if_neg hp, ih h2]

theorem aGet_append_single {α : Type} (m : List (Str × α)) (k k' : Str) (v : α)
    (h : ∀ p ∈ m, p.1 ≠ k) :
    aGet (m ++ [(k, v)]) k' = if k' = k then some v else aGet m k' := by
  induction m with
  | nil =>
    simp only [List.nil_append, aGet]
    by_cases hk : k' = k
    · rw [if_pos (show k = k' from hk.symm), if_pos hk]
    · rw [if_neg (fun he : k = k' => hk he.symm), if_neg hk]
  | cons p rest ih =>
    have hp := h p (List.mem_cons_self p rest)
    by_cases hpk : p.1 = k'
    · have hk : k' ≠ k := fun he => hp (by rw [hpk, he])
      simp only [List.cons_append, aGet, if_pos hpk, if_neg hk]
    · simp only [List.cons_append, aGet, if_neg hpk, List.append_eq,
        ih (fun q hq => h q (List.mem_cons_of_mem p hq))]

theorem aGet_aInsert {α : Type} (m : List (Str × α)) (k k' : Str) (v : α) :
    aGet (aInsert m k v) k' = if k' = k then some v else aGet m k' := by
  unfold aInsert
  by_cases hany : m.any (fun p => decide (p.1 = k)) = true
  · rw [if_pos hany]
    by_cases hk : k' = k
    · rw [if_pos hk, hk, aGet_map_replace_self hany]
    · rw [if_neg hk, aGet_map_replace hk]
  · rw [if_neg hany]
    have hnm : ∀ p ∈ m, p.1 ≠ k := by
      intro p hp he
      exact hany (List.any_eq_true.mpr ⟨p, hp, decide_eq_true he⟩)
    exact aGet_append_single m k k' v hnm

theorem assocLast_append {α : Type} (a b : List (Str × α)) (k : Str) :
    assocLast (a ++ b) k =
      match assocLast b k with
      | some v => some v
      | none => assocLast a k := by
  induction a with
  | nil =>
    simp only [List.nil_append, assocLast]
    match assocLast b k with
    | some v => rfl
    | none => rfl
  | cons p rest ih =>
    simp only [List.cons_append, assocLast, List.append_eq, ih]
    match assocLast b k with
    | some v => rfl
    | none => rfl

theorem aGet_foldl_aInsert {α : Type} (l : List (Str × α)) :
    ∀ (m : List (Str × α)) (k : Str),
      aGet (l.foldl (fun m p => aInsert m p.1 p.2) m) k =
        match assocLast l k with
        | some v => some v
        | none => aGet m k := by
  induction l with
  | nil => intro m k; rfl
  | cons p rest ih =>
    intro m k
    simp only [List.foldl_cons, assocLast, ih (aInsert m p.1 p.2) k, aGet_aInsert]
    match assocLast rest k with
    | some v => rfl
    | none =>
      by_cases hk : k = p.1
      · rw [if_pos hk, if_pos (hk ▸ rfl)]
      · rw [if_neg hk, if_neg (fun he : p.1 = k => hk he.symm)]

theorem aGet_fromPairs {α : Type} (l : List (Str × α)) (k : Str) :
    aGet (fromPairs l) k = assocLast l k := by
  rw [fromPairs, aGet_foldl_aInsert]
  match assocLast l k with
  | some v => rfl
  | none => rfl

theorem aInsert_of_not_mem {α : Type} {m : List (Str × α)} {k : Str} {v : α}
    (h : k ∉ m.map Prod.fst) : aInsert m k v = m ++ [(k, v)] := by
  unfold aInsert
  rw [if_neg]
  intro hany
  obtain ⟨p, hp, hpk⟩ := List.any_eq_true.mp hany
  exact h (List.mem_map.mpr ⟨p, hp, of_decide_eq_true hpk⟩)

theorem foldl_aInsert_of_WF {α : Type} (l : List (Str × α)) :
    ∀ m : List (Str × α), mapWF (m ++ l) →
      l.foldl (fun m p => aInsert m p.1 p.2) m = m ++ l := by
  induction l with
  | nil => intro m _; simp
  | cons p rest ih =>
    intro m hwf
    have hk : p.1 ∉ m.map Prod.fst := by
      intro hm
      have hnodup : (m.map Prod.fst ++ (p.1 :: rest.map Prod.fst)).Nodup := by
        simpa [mapWF, List.map_append] using hwf
      exact List.disjoint_of_nodup_append hnodup hm (List.mem_cons_self _ _)
    have hwf2 : mapWF ((m ++ [p]) ++ rest) := by
      simpa [mapWF, List.map_append, List.append_assoc] using hwf
    simp only [List.foldl_cons, aInsert_of_not_mem hk, ih (m ++ [p]) hwf2]
    simp

theorem fromPairs_of_WF {α : Type} {m : List (Str × α)} (h : mapWF m) :
    fromPairs m = m := by
  rw [fromPairs, foldl_aInsert_of_WF m [] (by simpa using h)]
  simp

theorem assocLast_eq_none_of_not_mem {α : Type} {l : List (Str × α)} {k : Str}
    (h : k ∉ l.map Prod.fst) : assocLast l k = none := by
  induction l with
  | nil => rfl
  | cons p rest ih =>
    have h1 : p.1 ≠ k := fun he => h (List.mem_map.mpr ⟨p, List.mem_cons_self p rest, he⟩)
    have h2 : k ∉ rest.map Prod.fst :=
      fun hm => h (List.map_cons Prod.fst p rest ▸ List.mem_cons_of_mem p.1 hm)
    simp only [assocLast, ih h2, if_neg h1]

theorem aGet_eq_assocLast_of_WF {α : Type} {m : List (Str × α)} (h : mapWF m)
    (k : Str) : aGet m k = assocLast m k := by
  induction m with
  | nil => rfl
  | cons p rest ih =>
    have hwf : mapWF rest := (List.nodup_cons.mp h).2
    have hnp : p.1 ∉ rest.map Prod.fst := (List.nodup_cons.mp h).1
    by_cases hp : p.1 = k
    · have : assocLast rest k = none := assocLast_eq_none_of_not_mem (hp ▸ hnp)
      simp only [aGet, assocLast, if_pos hp, this]
    · simp only [aGet, assocLast, if_neg hp, ih hwf]
      match assocLast rest k with
      | some v => rfl
      | none => rfl

theorem safeStr_ascii {s : Str} (h : safeStr s = true) : ∀ c ∈ s, c.toNat < 0x80 :=
  fun c hc => (safeChar_spec (List.all_eq_true.mp h c hc)).1

theorem parseEntry_encoded {k v : Str} (hk : safeStr k = true) (hv : safeStr v = true) :
    parseEntry (k ++ '=' :: v) = some (k, v) := by
  have hsemi : ';' ∉ k ++ '=' :: v := by
    intro hm
    rcases List.mem_append.mp hm with h1 | h1
    · exact safeStr_not_mem_semi hk h1
    · rcases List.mem_cons.mp h1 with h2 | h2
      · exact absurd h2.symm (by decide)
      · exact safeStr_not_mem_semi hv h2
  have hkeq : '=' ∉ k := safeStr_not_mem_eq hk
  have hveq : '=' ∉ v := safeStr_not_mem_eq hv
  have h1 : splitOnChar ';' (k ++ '=' :: v) = [k ++ '=' :: v] := splitOnChar_no_sep hsemi
  have h2 : splitOnChar '=' (k ++ '=' :: v) = [k, v] := by
    rw [splitOnChar_append_sep hkeq, splitOnChar_no_sep hveq]
  simp only [parseEntry, h1, h2, percentDecode_safe hk, percentDecode_safe hv,
    decodeUtf8_ascii (safeStr_ascii hk), decodeUtf8_ascii (safeStr_ascii hv),
    trimStr_safe_id hk, trimStr_safe_id hv,
    List.filterMap_nil, List.map_nil, List.flatten_nil, List.append_nil]

theorem parseEntryKV_encoded {k v : Str} (hk : safeStr k = true) (hv : safeStr v = true) :
    parseEntryKV (k ++ '=' :: v) = some (k, Value.string v) := by
  rw [parseEntryKV, parseEntry_encoded hk hv]
  rfl

theorem filterMap_parseEntryKV_encoded {cc : CorrelationContext}
    (h : ∀ p ∈ cc, safeStr p.1 = true ∧ ∃ s, p.2 = Value.string s ∧ safeStr s = true) :
    (cc.map fun p => p.1 ++ '=' :: valueToString p.2).filterMap parseEntryKV = cc := by
  induction cc with
  | nil => rfl
  | cons p rest ih =>
    obtain ⟨hk, s, hvs, hs⟩ := h p (List.mem_cons_self p rest)
    have hone : parseEntryKV (p.1 ++ '=' :: valueToString p.2) =
        some (p.1, Value.string (valueToString p.2)) := by
      rw [hvs]
      exact parseEntryKV_encoded hk hs
    have hrest := ih fun q hq => h q (List.mem_cons_of_mem p hq)
    simp only [List.map_cons, List.filterMap_cons, hone, hrest]
    rw [hvs]
    show (p.1, Value.string s) :: rest = p :: rest
    rw [← hvs]

theorem extract_inject_roundTrip {cc : CorrelationContext} (hwf : mapWF cc)
    (h : ∀ p ∈ cc, safeStr p.1 = true ∧ ∃ s, p.2 = Value.string s ∧ safeStr s = true) :
    extract_with_context [] (inject_context cc) = cc := by
  by_cases hcc : cc = []
  · subst hcc; rfl
  · have hmap : (cc.map fun p =>
        utf8PercentEncode (trimStr p.1) ++ '=' ::
          utf8PercentEncode (trimStr (valueToString p.2)))
        = cc.map (fun p => p.1 ++ '=' :: valueToString p.2) := by
      apply List.map_congr_left
      intro p hp
      obtain ⟨hk, s, hvs, hs⟩ := h p hp
      rw [hvs]
      show utf8PercentEncode (trimStr p.1) ++ '=' :: utf8PercentEncode (trimStr s) = _
      rw [trimStr_safe_id hk, utf8PercentEncode_safe_id hk, trimStr_safe_id hs,
        utf8PercentEncode_safe_id hs]
      rfl
    rw [inject_context, if_neg hcc, hmap]
    show with_correlations [] (extractedPairs _) = cc
    have hne : cc.map (fun p => p.1 ++ '=' :: valueToString p.2) ≠ [] := by
      intro he
      exact hcc (List.map_eq_nil_iff.mp he)
    have hcomma : ∀ part ∈ cc.map (fun p => p.1 ++ '=' :: valueToString p.2), ',' ∉ part := by
      intro part hpart hm
      obtain ⟨p, hp, hpe⟩ := List.mem_map.mp hpart
      obtain ⟨hk, s, hvs, hs⟩ := h p hp
      subst hpe
      rcases List.mem_append.mp hm with h1 | h1
      · exact safeStr_not_mem_comma hk h1
      · rcases List.mem_cons.mp h1 with h2 | h2
        · exact absurd h2.symm (by decide)
        · rw [hvs] at h2
          exact safeStr_not_mem_comma hs h2
    rw [with_correlations, extractedPairs, joinSep_split hne hcomma,
      filterMap_parseEntryKV_encoded h, List.nil_append, fromPairs_of_WF hwf]

theorem extract_with_context_none (base : CorrelationContext) :
    extract_with_context base none = base := rfl

theorem extract_with_context_all_malformed {base : CorrelationContext} {hv : Str}
    (hwf : mapWF base) (hm : ∀ e ∈ splitOnChar ',' hv, parseEntryKV e = none) :
    extract_with_context base (some hv) = base := by
  show with_correlations base (extractedPairs hv) = base
  rw [with_correlations, extractedPairs, List.filterMap_eq_nil_iff.mpr hm,
    List.append_nil, fromPairs_of_WF hwf]

theorem parseEntry_no_eq {t : Str} (h : '=' ∉ t) : parseEntry t = none := by
  match hsp : splitOnChar ';' t with
  | [] => exact absurd hsp (splitOnChar_ne_nil ';' t)
  | nv :: props =>
    have hnv : '=' ∉ nv :=
      fun hm => h (mem_of_mem_splitOnChar (hsp ▸ List.mem_cons_self nv props) hm)
    simp only [parseEntry, hsp, splitOnChar_no_sep hnv]

theorem parseEntry_second_eq {k a b : Str} (hk : safeStr k = true)
    (ha : safeStr a = true) (hb : ';' ∉ b) :
    parseEntry (k ++ '=' :: (a ++ '=' :: b)) = some (k, a) := by
  have hsemi : ';' ∉ k ++ '=' :: (a ++ '=' :: b) := by
    intro hm
    rcases List.mem_append.mp hm with h1 | h1
    · exact safeStr_not_mem_semi hk h1
    · rcases List.mem_cons.mp h1 with h2 | h2
      · exact absurd h2.symm (by decide)
      · rcases List.mem_append.mp h2 with h3 | h3
        · exact safeStr_not_mem_semi ha h3
        · rcases List.mem_cons.mp h3 with h4 | h4
          · exact absurd h4.symm (by decide)
          · exact hb h4
  have h1 : splitOnChar ';' (k ++ '=' :: (a ++ '=' :: b)) = [k ++ '=' :: (a ++ '=' :: b)] :=
    splitOnChar_no_sep hsemi
  have h2 : splitOnChar '=' (k ++ '=' :: (a ++ '=' :: b)) =
      k :: a :: splitOnChar '=' b := by
    rw [splitOnChar_append_sep (safeStr_not_mem_eq hk),
      splitOnChar_append_sep (safeStr_not_mem_eq ha)]
  simp only [parseEntry, h1, h2, percentDecode_safe hk, percentDecode_safe ha,
    decodeUtf8_ascii (safeStr_ascii hk), decodeUtf8_ascii (safeStr_ascii ha),
    trimStr_safe_id hk, trimStr_safe_id ha,
    List.filterMap_nil, List.map_nil, List.flatten_nil, List.append_nil]

theorem extractedPairs_cons_skip {t hv : Str} (ht : parseEntryKV t = none)
    (hc : ',' ∉ t) :
    extractedPairs (t ++ ',' :: hv) = extractedPairs hv := by
  rw [extractedPairs, splitOnChar_append_sep hc, List.filterMap_cons, ht, extractedPairs]

theorem extract_merge {base : CorrelationContext} (hwf : mapWF base) (hv : Str)
    (k : Str) :
    aGet (extract_with_context base (some hv)) k =
      match assocLast (extractedPairs hv) k with
      | some v => some v
      | none => aGet base k := by
  show aGet (with_correlations base (extractedPairs hv)) k = _
  rw [with_correlations, aGet_fromPairs, assocLast_append,
    ← aGet_eq_assocLast_of_WF hwf]
  match assocLast (extractedPairs hv) k with
  | some v => rfl
  | none => rfl

theorem hexUpper_facts : ∀ n < 16,
    (hexUpper n).toNat < 0x80 ∧ inFragment (hexUpper n).toNat = false := by decide

theorem utf8Bytes_lt {c : Char} : ∀ b ∈ utf8Bytes c, b < 256 := by
  intro b hb
  have hc := char_toNat_lt c
  simp only [utf8Bytes] at hb
  by_cases h1 : c.toNat < 0x80
  · rw [if_pos h1] at hb
    simp at hb
    omega
  · rw [if_neg h1] at hb
    by_cases h2 : c.toNat < 0x800
    · rw [if_pos h2] at hb
      simp at hb
      omega
    · rw [if_neg h2] at hb
      by_cases h3 : c.toNat < 0x10000
      · rw [if_pos h3] at hb
        simp at hb
        omega
      · rw [if_neg h3] at hb
        simp at hb
        omega

theorem mem_pctByte {b : Nat} {c : Char} (hb : b < 256) (h : c ∈ pctByte b) :
    c.toNat < 0x80 ∧ inFragment c.toNat = false := by
  have h16a : b / 16 < 16 := by omega
  have h16b : b % 16 < 16 := by omega
  rw [pctByte] at h
  rcases List.mem_cons.mp h with h1 | h1
  · subst h1
    exact ⟨by decide, by decide⟩
  rcases List.mem_cons.mp h1 with h2 | h2
  · subst h2
    exact hexUpper_facts _ h16a
  rcases List.mem_cons.mp h2 with h3 | h3
  · subst h3
    exact hexUpper_facts _ h16b
  · exact absurd h3 (List.not_mem_nil c)

theorem mem_utf8PercentEncode {s : Str} {c : Char} (h : c ∈ utf8PercentEncode s) :
    c.toNat < 0x80 ∧ inFragment c.toNat = false := by
  rw [utf8PercentEncode] at h
  obtain ⟨d, hd, hc⟩ := List.mem_flatMap.mp h
  obtain ⟨b, hb, hc2⟩ := List.mem_flatMap.mp hc
  have hblt := utf8Bytes_lt b hb
  by_cases hp : shouldPctEncode b = true
  · rw [if_pos hp] at hc2
    exact mem_pctByte hblt hc2
  · rw [if_neg hp] at hc2
    have hc3 : c = Char.ofNat b := by simpa using hc2
    have hps : ¬0x80 ≤ b ∧ inFragment b = false := by
      rw [Bool.not_eq_true] at hp
      simpa [shouldPctEncode, Bool.or_eq_false_iff, decide_eq_false_iff_not] using hp
    subst hc3
    rw [toNat_charOfNat_of_lt (by omega)]
    exact ⟨by omega, hps.2⟩

theorem hmGet_hmSet {m : List (Str × Str)} {k k' v : Str}
    (h : lowerStr k = lowerStr k') : hmGet (hmSet m k v) k' = some v := by
  rw [hmGet, hmSet, ← h, aGet_aInsert, if_pos rfl]

/-- Claim C1, counterexample. The round-trip claim fails as stated: a
correlation context holding the boolean value `true` (a supported value
kind, free of reserved characters) decodes to the string value `"true"`,
not to the boolean; and a string value containing `%` (which the
`FRAGMENT` set does not escape) is altered by decoding. -/
theorem C1_roundtrip_counterexample :
    extract_with_context [] (inject_context [("k".toList, Value.bool true)]) ≠
      [("k".toList, Value.bool true)] ∧
    extract_with_context []
        (inject_context [("k".toList, Value.string "a%2C".toList)]) ≠
      [("k".toList, Value.string "a%2C".toList)] := by
  constructor
  · decide
  · decide

/-- Claim C1, amended. For every correlation context with pairwise
distinct keys whose values are of string kind, and whose keys and values
consist of ASCII characters outside the `FRAGMENT` encode set and contain
no `%`, extracting (via `extract_with_context` on an empty base context)
the header value produced by `inject_context` returns exactly the
original pairs. -/
theorem C1_roundtrip_amended (cc : CorrelationContext) (hwf : mapWF cc)
    (h : ∀ p ∈ cc, safeStr p.1 = true ∧ stringKindSafe p.2 = true) :
    extract_with_context [] (inject_context cc) = cc := by
  apply extract_inject_roundTrip hwf
  intro p hp
  obtain ⟨h1, h2⟩ := h p hp
  refine ⟨h1, ?_⟩
  match hv : p.2 with
  | .string s =>
    refine ⟨s, rfl, ?_⟩
    rw [hv, stringKindSafe] at h2
    exact h2
  | .bool b => rw [hv] at h2; exact absurd h2 (by simp [stringKindSafe])
  | .i64 i => rw [hv] at h2; exact absurd h2 (by simp [stringKindSafe])
  | .u64 n => rw [hv] at h2; exact absurd h2 (by simp [stringKindSafe])

/-- Claim C1, witness: the round trip at a concrete two-entry context. -/
theorem C1_roundtrip_witness :
    extract_with_context []
        (inject_context [("key1".toList, Value.string "val1".toList),
          ("key2".toList, Value.string "val2".toList)]) =
      [("key1".toList, Value.string "val1".toList),
        ("key2".toList, Value.string "val2".toList)] :=
  C1_roundtrip_amended _ (by decide) (by decide)

/-- Claim C2. Extraction is total by construction and never fails the
caller: with an absent carrier field it returns the base correlation
context unchanged, and with a field value all of whose entries are
malformed it also returns the base unchanged (given the base map's keys
are distinct, an invariant of every real correlation context). -/
theorem C2_extraction_graceful (base : CorrelationContext) (hwf : mapWF base) :
    extract_with_context base none = base ∧
    ∀ hv : Str, (∀ e ∈ splitOnChar ',' hv, parseEntryKV e = none) →
      extract_with_context base (some hv) = base :=
  ⟨extract_with_context_none base,
   fun _ hm => extract_with_context_all_malformed hwf hm⟩

/-- Claim C2, witness: a concrete base survives an absent field and a
field consisting only of malformed entries. -/
theorem C2_extraction_witness :
    extract_with_context [("k".toList, Value.string "v".toList)] none =
      [("k".toList, Value.string "v".toList)] ∧
    extract_with_context [("k".toList, Value.string "v".toList)]
        (some "a,val3".toList) =
      [("k".toList, Value.string "v".toList)] :=
  ⟨(C2_extraction_graceful _ (by decide)).1,
   (C2_extraction_graceful _ (by decide)).2 "a,val3".toList (by decide)⟩

/-- Claim C3, counterexample. The first segment of an entry is split on
every `=`, and only the first two pieces are kept: for the entry
`key=a=b` the extracted value is `a`, with the remainder `b` dropped; it
is not the entire remainder `a=b` after the first `=` as claimed. -/
theorem C3_split_counterexample :
    extract_with_context [] (some "key=a=b".toList) =
      [("key".toList, Value.string "a".toList)] ∧
    extract_with_context [] (some "key=a=b".toList) ≠
      [("key".toList, Value.string "a=b".toList)] := by
  constructor
  · decide
  · decide

/-- Claim C3, amended. The first `;`-separated segment of an entry is
split on `=` and only the first two pieces are used: the name is the text
before the first `=`, the value the text between the first and second `=`
(anything after a second `=` is dropped); an entry with no `=` at all is
discarded, and such a discarded entry does not abort the rest of the
extraction. -/
theorem C3_split_amended (k a b t hv : Str) (hk : safeStr k = true)
    (ha : safeStr a = true) (hb : ';' ∉ b) (ht : '=' ∉ t) (htc : ',' ∉ t) :
    parseEntry (k ++ '=' :: (a ++ '=' :: b)) = some (k, a) ∧
    parseEntry t = none ∧
    extractedPairs (t ++ ',' :: hv) = extractedPairs hv := by
  have hnone : parseEntry t = none := parseEntry_no_eq ht
  refine ⟨parseEntry_second_eq hk ha hb, hnone, ?_⟩
  exact extractedPairs_cons_skip (by rw [parseEntryKV, hnone]; rfl) htc

/-- Claim C3, witness: the amended behavior at the entry `key=a=b` and
the standalone token `a` inside a larger field value. -/
theorem C3_split_witness :
    parseEntry "key=a=b".toList = some ("key".toList, "a".toList) ∧
    parseEntry "a".toList = none ∧
    extractedPairs "a,key2=val2".toList = extractedPairs "key2=val2".toList := by
  have h := C3_split_amended "key".toList "a".toList "b".toList "a".toList
    "key2=val2".toList (by decide) (by decide) (by decide) (by decide) (by decide)
  exact h

/-- Claim C4. Extracting the wire value `key1=val1,key2=val2,a,val3` into
an empty base context yields exactly the pairs `key1 = "val1"` and
`key2 = "val2"`; the standalone tokens `a` and `val3` contribute
nothing. -/
theorem C4_malformed_tail_skip :
    extract_with_context [] (some "key1=val1,key2=val2,a,val3".toList) =
      [("key1".toList, Value.string "val1".toList),
        ("key2".toList, Value.string "val2".toList)] := by
  decide

/-- Claim C5. Encoding escapes the reserved delimiters: injecting
`{key1: "val1,val2"}` produces the field value `key1=val1%2Cval2`;
extracting `key1=val1%2Cval2` yields exactly `{key1: "val1,val2"}`; and
surrounding whitespace of keys and values is trimmed before encoding. -/
theorem C5_escaping :
    inject_context [("key1".toList, Value.string "val1,val2".toList)] =
      some "key1=val1%2Cval2".toList ∧
    extract_with_context [] (some "key1=val1%2Cval2".toList) =
      [("key1".toList, Value.string "val1,val2".toList)] ∧
    inject_context [(" key1 ".toList, Value.string " val1,val2 ".toList)] =
      some "key1=val1%2Cval2".toList := by
  refine ⟨?_, ?_, ?_⟩
  · decide
  · decide
  · decide

/-- Claim C6. A context whose correlation context is empty injects
nothing: no header value is produced, and a `HashMap` carrier is left
unchanged. -/
theorem C6_empty_inject (cc : CorrelationContext) (m : List (Str × Str))
    (h : cc = []) :
    inject_context cc = none ∧ injectContextHashMap cc m = m := by
  subst h
  exact ⟨rfl, rfl⟩

/-- Claim C6, witness: the empty context leaves a concrete non-empty
carrier untouched. -/
theorem C6_empty_inject_witness :
    inject_context [] = none ∧
    injectContextHashMap [] [("x".toList, "y".toList)] = [("x".toList, "y".toList)] :=
  C6_empty_inject [] [("x".toList, "y".toList)] rfl

/-- Claim C7. In the extracted result, a key looked up resolves to the
value of its last successfully extracted wire occurrence when one exists
(later occurrences override earlier ones and base entries), and to its
base value otherwise (base entries not overridden are preserved). -/
theorem C7_merge_override (base : CorrelationContext) (hwf : mapWF base)
    (hv k : Str) :
    aGet (extract_with_context base (some hv)) k =
      match assocLast (extractedPairs hv) k with
      | some v => some v
      | none => aGet base k :=
  extract_merge hwf hv k

/-- Claim C7, witness: with base `{a: "1", k: "0"}` and wire value
`k=9,k=8`, the key `k` resolves to the last wire occurrence `"8"` and the
key `a` keeps its base value `"1"`. -/
theorem C7_merge_witness :
    aGet (extract_with_context
        [("a".toList, Value.string "1".toList), ("k".toList, Value.string "0".toList)]
        (some "k=9,k=8".toList)) "k".toList = some (Value.string "8".toList) ∧
    aGet (extract_with_context
        [("a".toList, Value.string "1".toList), ("k".toList, Value.string "0".toList)]
        (some "k=9,k=8".toList)) "a".toList = some (Value.string "1".toList) :=
  ⟨(C7_merge_override _ (by decide) _ _).trans (by decide),
   (C7_merge_override _ (by decide) _ _).trans (by decide)⟩

/-- Claim C8. The `HashMap` carrier adapter is case-insensitive by
construction: after `set` with key `k`, a `get` with any key `k'` having
the same lower-cased form (in particular, differing from `k` only in
ASCII letter case) returns the stored value, because both operations
normalize keys to lower case. -/
theorem C8_case_insensitive_carrier (m : List (Str × Str)) (k k' v : Str)
    (h : lowerStr k = lowerStr k') :
    hmGet (hmSet m k v) k' = some v :=
  hmGet_hmSet h

/-- Claim C8, witness: `set` with `HeaderName` followed by `get` with
`HEADERNAME` returns the stored value. -/
theorem C8_case_insensitive_witness :
    hmGet (hmSet [] "HeaderName".toList "value".toList) "HEADERNAME".toList =
      some "value".toList :=
  C8_case_insensitive_carrier [] "HeaderName".toList "HEADERNAME".toList
    "value".toList (by decide)

/-- Claim C9. An entry with an empty value is valid: extracting
`key1=,key2=val2` into an empty base yields exactly `key1 = ""` and
`key2 = "val2"`. -/
theorem C9_empty_value_entry :
    extract_with_context [] (some "key1=,key2=val2".toList) =
      [("key1".toList, Value.string "".toList),
        ("key2".toList, Value.string "val2".toList)] := by
  decide

/-- Claim C10. The `FRAGMENT` encode set also escapes `=`: every
character emitted by the percent-encoder is ASCII and outside the encode
set (which contains `=`, `,`, `;`, space, `"` and all control
characters), so encoded names and values contain no literal occurrence of
any of those; concretely, the value `val3=4` under the key `key2` is
emitted as `key2=val3%3D4`, the only literal `=` being the separator
written by the encoder. -/
theorem C10_encode_escapes_eq (s : Str) (c : Char)
    (h : c ∈ utf8PercentEncode s) :
    (c.toNat < 0x80 ∧ inFragment c.toNat = false) ∧
    inject_context [("key2".toList, Value.string "val3=4".toList)] =
      some "key2=val3%3D4".toList :=
  ⟨mem_utf8PercentEncode h, by decide⟩

/-- Claim C10, witness: the character facts at a concrete encoded
string. -/
theorem C10_encode_escapes_witness :
    (('v' : Char).toNat < 0x80 ∧ inFragment ('v' : Char).toNat = false) ∧
    inject_context [("key2".toList, Value.string "val3=4".toList)] =
      some "key2=val3%3D4".toList :=
  C10_encode_escapes_eq "val3=4".toList 'v' (by decide)
